import Mathlib

/-!
Shallow embedding of a generic Go slice library (`package slice`): a
length/capacity view over shared backing buffers, with construction,
indexed get/set, three-index sub-slicing, amortized-growth append and
bulk copy.

Memory model: a `Heap α` is the list of allocated backing buffers; a
buffer id is its index in that list, so a fresh allocation appends a
buffer and its id is the old heap length.  A Go slice header (`GoSlice`)
records the buffer id, the start offset into the buffer, the Go length
and the Go capacity.  The Go struct

  type Slice[T any] struct { array *[]T; length int; capacity int }

becomes the record `Slice` below; the `*[]T` pointer is `Option GoSlice`
(the header is created fresh by every operation and never mutated
through the pointer, so the extra indirection is observationally
irrelevant and is inlined).  Run-time panics (index out of range,
invalid ranges and sizes, nil pointer dereference, out-of-range
three-index slice expressions) are modelled as `Except` errors.
Machine integers are modelled as `Int`; `nextSliceCapacity`, whose
source explicitly relies on 64-bit wraparound and unsigned comparison,
is modelled with explicit wrapping at 2^64.
-/

namespace slice

inductive GoErr where
  | indexOutOfRange
  | invalidRange
  | invalidSize
  | nilDeref
  | sliceBounds
  | outOfFuel
deriving DecidableEq

structure GoSlice where
  buf : Nat
  off : Nat
  glen : Nat
  gcap : Nat
deriving DecidableEq

structure Slice where
  array : Option GoSlice
  length : Int
  capacity : Int
deriving DecidableEq

abbrev Heap (α : Type) := List (List α)

/-- Read the heap slot `n` of buffer `b` (out-of-range reads return
`default`; they are unreachable for well-formed views). -/
def hRead [Inhabited α] (h : Heap α) (b n : Nat) : α :=
  (h.getD b []).getD n default

/-- Overwrite the heap slot `n` of buffer `b`. -/
def hWrite (h : Heap α) (b n : Nat) (x : α) : Heap α :=
  h.set b ((h.getD b []).set n x)

def Slice.Len (s : Slice) : Int := s.length

def Slice.Cap (s : Slice) : Int := s.capacity

def Slice.IsNil (s : Slice) : Bool := s.array.isNone

/-- Go indexing `(*s.array)[idx]`: dereference the header pointer and
read, with Go's own bound check against the Go length. -/
def goIndexRead [Inhabited α] (h : Heap α) : Option GoSlice → Int → Except GoErr α
  | none, _ => .error .nilDeref
  | some gs, i =>
    if 0 ≤ i ∧ i < (gs.glen : Int) then .ok (hRead h gs.buf (gs.off + i.toNat))
    else .error .indexOutOfRange

/-- `func (s Slice[T]) Get(idx int) T`: bound check against `s.Len()`,
then `(*s.array)[idx]`. -/
def Slice.Get [Inhabited α] (s : Slice) (idx : Int) (h : Heap α) : Except GoErr α :=
  if idx < 0 ∨ s.Len ≤ idx then .error .indexOutOfRange
  else goIndexRead h s.array idx

/-- `func (s Slice[T]) Set(idx int, val T)`: the source checks
`idx < 0 || idx >= len(*s.array)`; `||` short-circuits, so a negative
index fails before the nil pointer is dereferenced, and the bound is
the Go length of the backing header. -/
def Slice.Set (s : Slice) (idx : Int) (val : α) (h : Heap α) : Except GoErr (Heap α) :=
  if idx < 0 then .error .indexOutOfRange
  else
    match s.array with
    | none => .error .nilDeref
    | some gs =>
      if (gs.glen : Int) ≤ idx then .error .indexOutOfRange
      else .ok (hWrite h gs.buf (gs.off + idx.toNat) val)

/-- `func extractMakeIndexes(size ...int) (length, capacity int, err error)`. -/
def extractMakeIndexes (size : List Int) : Except GoErr (Int × Int) :=
  if size.length = 0 then .error .invalidSize
  else if 2 < size.length then .error .invalidSize
  else
    let length := size.getD 0 0
    let capacity := if size.length = 2 then size.getD 1 0 else length
    if length < 0 then .error .invalidSize
    else if capacity < 0 then .error .invalidSize
    else if capacity < length then .error .invalidSize
    else .ok (length, capacity)

/-- `func Make[T any](size ...int) Slice[T]`: validate the sizes, then
`make([]T, length, capacity)` — a fresh zero-initialized buffer of
`capacity` slots whose header has Go length `length` and Go capacity
`capacity`.  `zero` is the zero value of the element type. -/
def Make (zero : α) (size : List Int) (h : Heap α) : Except GoErr (Slice × Heap α) :=
  match extractMakeIndexes size with
  | .error e => .error e
  | .ok (length, capacity) =>
    .ok ({ array := some ⟨h.length, 0, length.toNat, capacity.toNat⟩,
           length := length, capacity := capacity },
         h ++ [List.replicate capacity.toNat zero])

/-- `func (s Slice[T]) extractSlicedIndexes(indexes ...int)`. -/
def Slice.extractSlicedIndexes (s : Slice) (indexes : List Int) :
    Except GoErr (Int × Int × Int) :=
  if indexes.length < 2 ∨ 3 < indexes.length then .error .invalidRange
  else
    let low := indexes.getD 0 0
    let high := indexes.getD 1 0
    if low < 0 ∨ high < 0 ∨ high < low ∨ s.Cap < high then .error .invalidRange
    else
      let newCap := if indexes.length = 3 then indexes.getD 2 0 else s.Cap
      if newCap < high ∨ s.Cap < newCap then .error .invalidRange
      else .ok (low, high, newCap)

/-- `func (s Slice[T]) Sliced(indexes ...int) Slice[T]`: validate, then
the Go three-index slice expression `(*s.array)[low:high:newCap]`,
which dereferences the header pointer (nil view fails here) and
requires `0 ≤ low ≤ high ≤ newCap ≤ cap(*s.array)`.  No buffer is
copied: the result is a header into the same buffer. -/
def Slice.Sliced (s : Slice) (indexes : List Int) (_h : Heap α) : Except GoErr Slice :=
  match s.extractSlicedIndexes indexes with
  | .error e => .error e
  | .ok (low, high, newCap) =>
    match s.array with
    | none => .error .nilDeref
    | some gs =>
      if 0 ≤ low ∧ low ≤ high ∧ high ≤ newCap ∧ newCap ≤ (gs.gcap : Int) then
        .ok { array := some ⟨gs.buf, gs.off + low.toNat, (high - low).toNat,
                             (newCap - low).toNat⟩,
              length := high - low, capacity := newCap - low }
      else .error .sliceBounds

/-- 64-bit two's-complement wraparound of a Go `int` computation. -/
def wrap64 (n : Int) : Int := (n + 2 ^ 63) % 2 ^ 64 - 2 ^ 63

/-- Reinterpretation of a Go `int` as a Go `uint` (value in `[0, 2^64)`). -/
def toU64 (n : Int) : Int := n % 2 ^ 64

/-- Go integer division truncates toward zero. -/
def goQuot (a b : Int) : Int := Int.tdiv a b

/-- The `for { newCap += newCap / 4; if uint(newCap) >= uint(newLen) { break } }`
loop of `nextSliceCapacity`, with fuel for the (source-side unbounded)
iteration. -/
def capLoop (newLen : Int) : Nat → Int → Option Int
  | 0, _ => none
  | n + 1, newCap =>
    let c := wrap64 (newCap + goQuot newCap 4)
    if toU64 newLen ≤ toU64 c then some c else capLoop newLen n c

/-- `func nextSliceCapacity(newLen, oldCap int) int`. -/
def nextSliceCapacity (fuel : Nat) (newLen oldCap : Int) : Option Int :=
  let doubleCap := wrap64 (oldCap + oldCap)
  if doubleCap < newLen then some newLen
  else if oldCap < 1024 then some doubleCap
  else
    match capLoop newLen fuel oldCap with
    | none => none
    | some newCap => some (if newCap ≤ 0 then newLen else newCap)

/-- The loop `for i := start; i < start+len(elems); i++ { res.Set(i, elems[i-start]) }`
used by `Append` (with `start = s.Len()`) and `New` (with `start = 0`). -/
def setLoop (res : Slice) (start : Int) (elems : List α) (h : Heap α) :
    Except GoErr (Heap α) :=
  match elems with
  | [] => .ok h
  | x :: rest =>
    match Slice.Set res start x h with
    | .error e => .error e
    | .ok h' => setLoop res (start + 1) rest h'

/-- The loop `for i := lo; i < lo+cnt; i++ { dst.Set(i, src.Get(i)) }` used by
`growSlice` and `Copy`; the source element is read before the
destination slot is written, one index at a time. -/
def getSetLoop [Inhabited α] (dst src : Slice) (i : Int) (cnt : Nat) (h : Heap α) :
    Except GoErr (Heap α) :=
  match cnt with
  | 0 => .ok h
  | n + 1 =>
    match Slice.Get src i h with
    | .error e => .error e
    | .ok v =>
      match Slice.Set dst i v h with
      | .error e => .error e
      | .ok h' => getSetLoop dst src (i + 1) n h'

/-- `func growSlice[T any](s Slice[T], newLen int) Slice[T]`. -/
def growSlice [Inhabited α] (zero : α) (fuel : Nat) (s : Slice) (newLen : Int)
    (h : Heap α) : Except GoErr (Slice × Heap α) :=
  match nextSliceCapacity fuel newLen s.Cap with
  | none => .error .outOfFuel
  | some newCap =>
    match Make zero [newLen, newCap] h with
    | .error e => .error e
    | .ok (newS, h1) =>
      match getSetLoop newS s 0 s.Len.toNat h1 with
      | .error e => .error e
      | .ok h2 => .ok (newS, h2)

/-- `func Append[T any](s Slice[T], elems ...T) Slice[T]`. -/
def Append [Inhabited α] (zero : α) (fuel : Nat) (s : Slice) (elems : List α)
    (h : Heap α) : Except GoErr (Slice × Heap α) :=
  let resLen := s.Len + elems.length
  match (if resLen ≤ s.Cap then
           match Slice.Sliced s [0, resLen] h with
           | .error e => .error e
           | .ok t => .ok (t, h)
         else growSlice zero fuel s resLen h) with
  | .error e => .error e
  | .ok (res, h1) =>
    match setLoop res s.Len elems h1 with
    | .error e => .error e
    | .ok h2 => .ok (res, h2)

/-- `func New[T any](elems ...T) Slice[T]`. -/
def New (zero : α) (elems : List α) (h : Heap α) : Except GoErr (Slice × Heap α) :=
  match Make zero [(elems.length : Int)] h with
  | .error e => .error e
  | .ok (s, h1) =>
    match setLoop s 0 elems h1 with
    | .error e => .error e
    | .ok h2 => .ok (s, h2)

/-- `func Copy[T any](dst, src Slice[T]) int`. -/
def Copy [Inhabited α] (dst src : Slice) (h : Heap α) : Except GoErr (Int × Heap α) :=
  let minLen := if src.Len < dst.Len then src.Len else dst.Len
  match getSetLoop dst src 0 minLen.toNat h with
  | .error e => .error e
  | .ok h' => .ok (minLen, h')

/-- Well-formedness of a non-nil view over a heap: the stored length and
capacity agree with the Go header, the header is within its buffer, and
the buffer exists.  Every view produced by `Make`, `New`, `Sliced` and
`Append` satisfies this. -/
abbrev wfOn (h : Heap α) (s : Slice) (gs : GoSlice) : Prop :=
  s.array = some gs ∧ s.length = (gs.glen : Int) ∧ s.capacity = (gs.gcap : Int) ∧
    gs.glen ≤ gs.gcap ∧ gs.buf < h.length ∧ gs.off + gs.gcap ≤ (h.getD gs.buf []).length

/-- Writing a list of values into consecutive slots of one buffer; this is
the functional description of `setLoop` and of the write phase of
`getSetLoop`. -/
def writeList (b : Nat) : Heap α → Nat → List α → Heap α
  | h, _, [] => h
  | h, n, x :: l => writeList b (hWrite h b n x) (n + 1) l

/-- The values of `cnt` consecutive slots of a buffer. -/
def readList [Inhabited α] (h : Heap α) (b n cnt : Nat) : List α :=
  (List.range cnt).map fun j => hRead h b (n + j)

section HeapLemmas

variable {α : Type}

theorem length_hWrite (h : Heap α) (b n : Nat) (x : α) :
    (hWrite h b n x).length = h.length := List.length_set ..

theorem getD_hWrite_self (h : Heap α) (b n : Nat) (x : α) :
    (hWrite h b n x).getD b [] = (h.getD b []).set n x := by
  unfold hWrite
  by_cases hb : b < h.length
  · rw [List.getD_eq_getElem?_getD, List.getElem?_set_self hb]
    rfl
  · rw [List.set_eq_of_length_le (Nat.le_of_not_lt hb)]
    have hnone : h[b]? = none := List.getElem?_eq_none (Nat.le_of_not_lt hb)
    simp [List.getD_eq_getElem?_getD, hnone]

theorem getD_hWrite_ne {h : Heap α} {b b' n : Nat} (x : α) (hb : b' ≠ b) :
    (hWrite h b n x).getD b' [] = h.getD b' [] := by
  unfold hWrite
  rw [List.getD_eq_getElem?_getD, List.getElem?_set_ne (fun hh => hb hh.symm),
    List.getD_eq_getElem?_getD]

theorem length_getD_hWrite (h : Heap α) (b b' n : Nat) (x : α) :
    ((hWrite h b n x).getD b' []).length = (h.getD b' []).length := by
  by_cases hb : b' = b
  · subst hb; rw [getD_hWrite_self, List.length_set]
  · rw [getD_hWrite_ne x hb]

theorem hRead_hWrite_self [Inhabited α] {h : Heap α} {b n : Nat} {x : α}
    (hn : n < (h.getD b []).length) : hRead (hWrite h b n x) b n = x := by
  unfold hRead
  rw [getD_hWrite_self, List.getD_eq_getElem?_getD, List.getElem?_set_self hn]
  rfl

theorem hRead_hWrite_ne [Inhabited α] {h : Heap α} {b b' n n' : Nat} {x : α}
    (hne : b' ≠ b ∨ n' ≠ n) : hRead (hWrite h b n x) b' n' = hRead h b' n' := by
  by_cases hb : b' = b
  · subst hb
    have hn : n' ≠ n := hne.resolve_left (fun hh => hh rfl)
    unfold hRead
    rw [getD_hWrite_self, List.getD_eq_getElem?_getD,
      List.getElem?_set_ne (fun hh => hn hh.symm)]
    exact (List.getD_eq_getElem?_getD _ _ _).symm
  · unfold hRead
    rw [getD_hWrite_ne x hb]

theorem hRead_append [Inhabited α] {h : Heap α} {b m : Nat} (l : List α)
    (hb : b < h.length) : hRead (h ++ [l]) b m = hRead h b m := by
  simp [hRead, List.getD_eq_getElem?_getD, List.getElem?_append_left hb]

theorem length_writeList (b : Nat) (h : Heap α) (n : Nat) (l : List α) :
    (writeList b h n l).length = h.length := by
  induction l generalizing h n with
  | nil => rfl
  | cons x l ih => rw [writeList, ih, length_hWrite]

theorem getD_writeList_ne {b b' : Nat} (h : Heap α) (n : Nat) (l : List α)
    (hb : b' ≠ b) : (writeList b h n l).getD b' [] = h.getD b' [] := by
  induction l generalizing h n with
  | nil => rfl
  | cons x l ih => rw [writeList, ih, getD_hWrite_ne x hb]

theorem length_getD_writeList (b b' : Nat) (h : Heap α) (n : Nat) (l : List α) :
    ((writeList b h n l).getD b' []).length = (h.getD b' []).length := by
  induction l generalizing h n with
  | nil => rfl
  | cons x l ih => rw [writeList, ih, length_getD_hWrite]

theorem hRead_writeList_out [Inhabited α] {b b' : Nat} {h : Heap α} {n m : Nat} {l : List α}
    (hout : b' ≠ b ∨ m < n ∨ n + l.length ≤ m) :
    hRead (writeList b h n l) b' m = hRead h b' m := by
  induction l generalizing h n with
  | nil => rfl
  | cons x l ih =>
    have hlen : (x :: l).length = l.length + 1 := rfl
    rw [hlen] at hout
    have h1 : b' ≠ b ∨ m < n + 1 ∨ (n + 1) + l.length ≤ m := by
      rcases hout with hb | hm | hm
      · exact Or.inl hb
      · exact Or.inr (Or.inl (by omega))
      · exact Or.inr (Or.inr (by omega))
    have h2 : b' ≠ b ∨ m ≠ n := by
      rcases hout with hb | hm | hm
      · exact Or.inl hb
      · exact Or.inr (by omega)
      · exact Or.inr (by omega)
    rw [writeList, ih h1, hRead_hWrite_ne h2]

theorem hRead_writeList_at [Inhabited α] {b : Nat} {h : Heap α} {n : Nat} {l : List α}
    (hbuf : n + l.length ≤ (h.getD b []).length) :
    ∀ j, j < l.length → hRead (writeList b h n l) b (n + j) = l.getD j default := by
  induction l generalizing h n with
  | nil => intro j hj; exact absurd hj (Nat.not_lt_zero j)
  | cons x l ih =>
    intro j hj
    have hlen : (x :: l).length = l.length + 1 := rfl
    rw [hlen] at hbuf
    match j with
    | 0 =>
      have hstep : hRead (writeList b (hWrite h b n x) (n + 1) l) b n =
          hRead (hWrite h b n x) b n :=
        hRead_writeList_out (Or.inr (Or.inl (by omega)))
      calc hRead (writeList b h n (x :: l)) b (n + 0)
          = hRead (writeList b (hWrite h b n x) (n + 1) l) b n := rfl
        _ = hRead (hWrite h b n x) b n := hstep
        _ = x := hRead_hWrite_self (by omega)
        _ = (x :: l).getD 0 default := rfl
    | j + 1 =>
      have hbuf' : (n + 1) + l.length ≤ ((hWrite h b n x).getD b []).length := by
        rw [length_getD_hWrite]; omega
      have := ih hbuf' j (by rw [hlen] at hj; omega)
      rw [writeList, show n + (j + 1) = (n + 1) + j by omega, this]
      rfl

theorem readList_succ [Inhabited α] (h : Heap α) (b n cnt : Nat) :
    readList h b n (cnt + 1) = hRead h b n :: readList h b (n + 1) cnt := by
  unfold readList
  rw [List.range_succ_eq_map, List.map_cons, List.map_map]
  refine congrArg₂ _ rfl (List.map_congr_left ?_)
  intro j _
  show hRead h b (n + (j + 1)) = hRead h b ((n + 1) + j)
  rw [show n + (j + 1) = (n + 1) + j by omega]

theorem length_readList [Inhabited α] (h : Heap α) (b n cnt : Nat) :
    (readList h b n cnt).length = cnt := by simp [readList]

theorem readList_getD [Inhabited α] {h : Heap α} {b n cnt j : Nat} (hj : j < cnt) :
    (readList h b n cnt).getD j default = hRead h b (n + j) := by
  unfold readList
  rw [List.getD_eq_getElem?_getD, List.getElem?_map, List.getElem?_range hj]
  rfl

theorem readList_hWrite_out [Inhabited α] {h : Heap α} {b b' n m cnt : Nat} (x : α)
    (hcond : b ≠ b' ∨ m < n) : readList (hWrite h b' m x) b n cnt = readList h b n cnt := by
  unfold readList
  refine List.map_congr_left fun j hj => hRead_hWrite_ne ?_
  rcases hcond with hb | hm
  · exact Or.inl hb
  · exact Or.inr (by omega)

theorem readList_append [Inhabited α] (h : Heap α) (l : List α) {b : Nat} (n cnt : Nat)
    (hb : b < h.length) : readList (h ++ [l]) b n cnt = readList h b n cnt :=
  List.map_congr_left fun j _ => hRead_append l hb

end HeapLemmas

section OpLemmas

variable {α : Type}

theorem Set_ok {h : Heap α} {s : Slice} {gs : GoSlice} {i : Int} (x : α)
    (hgs : s.array = some gs) (h0 : 0 ≤ i) (hi : i < (gs.glen : Int)) :
    Slice.Set s i x h = .ok (hWrite h gs.buf (gs.off + i.toNat) x) := by
  unfold Slice.Set
  rw [if_neg (by omega), hgs]
  simp only
  rw [if_neg (by omega)]

theorem Set_error_iff {h : Heap α} {s : Slice} {gs : GoSlice} {i : Int} (x : α)
    (hgs : s.array = some gs) :
    Slice.Set s i x h = .error .indexOutOfRange ↔ (i < 0 ∨ (gs.glen : Int) ≤ i) := by
  unfold Slice.Set
  rw [hgs]
  by_cases hneg : i < 0
  · rw [if_pos hneg]
    simp [hneg]
  · rw [if_neg hneg]
    simp only
    by_cases hge : (gs.glen : Int) ≤ i
    · rw [if_pos hge]
      simp [hge]
    · rw [if_neg hge]
      simp [hneg, hge]

theorem Get_ok [Inhabited α] {h : Heap α} {s : Slice} {gs : GoSlice} {i : Int}
    (hgs : s.array = some gs) (hlen : s.length = (gs.glen : Int)) (h0 : 0 ≤ i)
    (hi : i < s.length) : Slice.Get s i h = .ok (hRead h gs.buf (gs.off + i.toNat)) := by
  unfold Slice.Get Slice.Len
  rw [if_neg (by omega), hgs]
  exact if_pos ⟨h0, by omega⟩

theorem setLoop_ok (res : Slice) {gs' : GoSlice} (hgs : res.array = some gs') :
    ∀ (elems : List α) (start : Int) (h : Heap α), 0 ≤ start →
      start + elems.length ≤ (gs'.glen : Int) →
      setLoop res start elems h = .ok (writeList gs'.buf h (gs'.off + start.toNat) elems) := by
  intro elems
  induction elems with
  | nil => intro start h _ _; rfl
  | cons x rest ih =>
    intro start h h0 hbound
    have hlen : ((x :: rest).length : Int) = rest.length + 1 := by simp
    rw [hlen] at hbound
    have hset := Set_ok (h := h) x hgs h0 (by omega)
    have hstep : setLoop res start (x :: rest) h =
        setLoop res (start + 1) rest (hWrite h gs'.buf (gs'.off + start.toNat) x) := by
      rw [setLoop, hset]
    rw [hstep, ih (start + 1) (hWrite h gs'.buf (gs'.off + start.toNat) x)
      (by omega) (by omega)]
    have harith : gs'.off + (start + 1).toNat = (gs'.off + start.toNat) + 1 := by omega
    rw [harith]
    rfl

theorem getSetLoop_ok [Inhabited α] (dst src : Slice) {gd gsrc : GoSlice}
    (hd : dst.array = some gd) (hs : src.array = some gsrc)
    (hslen : src.length = (gsrc.glen : Int))
    (hdisj : gd.buf ≠ gsrc.buf ∨ gd.off ≤ gsrc.off) :
    ∀ (cnt : Nat) (i : Int) (h : Heap α), 0 ≤ i →
      i + cnt ≤ (gd.glen : Int) → i + cnt ≤ src.length →
      getSetLoop dst src i cnt h =
        .ok (writeList gd.buf h (gd.off + i.toNat)
              (readList h gsrc.buf (gsrc.off + i.toNat) cnt)) := by
  intro cnt
  induction cnt with
  | zero => intro i h _ _ _; rfl
  | succ n ih =>
    intro i h h0 hdb hsb
    have hget := Get_ok (h := h) hs hslen h0 (by omega)
    have hset := Set_ok (h := h) (hRead h gsrc.buf (gsrc.off + i.toNat)) hd h0 (by omega)
    have hstep : getSetLoop dst src i (n + 1) h =
        getSetLoop dst src (i + 1) n
          (hWrite h gd.buf (gd.off + i.toNat) (hRead h gsrc.buf (gsrc.off + i.toNat))) := by
      rw [getSetLoop, hget]
      show (match Slice.Set dst i (hRead h gsrc.buf (gsrc.off + i.toNat)) h with
            | Except.error e => (Except.error e : Except GoErr (Heap α))
            | Except.ok h' => getSetLoop dst src (i + 1) n h') = _
      rw [hset]
    rw [hstep, ih (i + 1) _ (by omega) (by omega) (by omega)]
    have hrl : readList (hWrite h gd.buf (gd.off + i.toNat)
          (hRead h gsrc.buf (gsrc.off + i.toNat)))
          gsrc.buf (gsrc.off + (i + 1).toNat) n =
        readList h gsrc.buf (gsrc.off + (i + 1).toNat) n := by
      refine readList_hWrite_out _ ?_
      rcases hdisj with hb | ho
      · exact Or.inl (fun hh => hb hh.symm)
      · exact Or.inr (by omega)
    rw [hrl]
    have harith1 : gsrc.off + (i + 1).toNat = (gsrc.off + i.toNat) + 1 := by omega
    have harith2 : gd.off + (i + 1).toNat = (gd.off + i.toNat) + 1 := by omega
    rw [harith1, harith2, readList_succ]
    rfl

theorem extractMake2 {l c : Int} (hl0 : ¬ l < 0) (hc0 : ¬ c < 0) (hcl : ¬ c < l) :
    extractMakeIndexes [l, c] = .ok (l, c) := by
  unfold extractMakeIndexes
  norm_num [List.getD_cons_zero, List.getD_cons_succ]
  simp [hl0, hc0, hcl]

theorem extractMake1 {l : Int} (hl0 : ¬ l < 0) :
    extractMakeIndexes [l] = .ok (l, l) := by
  unfold extractMakeIndexes
  norm_num [List.getD_cons_zero, List.getD_cons_succ]
  simp [hl0]

theorem Make2_ok (zero : α) {l c : Int} (h0 : 0 ≤ l) (hlc : l ≤ c) (h : Heap α) :
    Make zero [l, c] h =
      .ok (⟨some ⟨h.length, 0, l.toNat, c.toNat⟩, l, c⟩,
           h ++ [List.replicate c.toNat zero]) := by
  unfold Make
  rw [extractMake2 (by omega) (by omega) (by omega)]

theorem Make1_ok (zero : α) {l : Int} (h0 : 0 ≤ l) (h : Heap α) :
    Make zero [l] h =
      .ok (⟨some ⟨h.length, 0, l.toNat, l.toNat⟩, l, l⟩,
           h ++ [List.replicate l.toNat zero]) := by
  unfold Make
  rw [extractMake1 (by omega)]

theorem extractSliced3 {s : Slice} {low high maxCap : Int}
    (ha : ¬ (low < 0 ∨ high < 0 ∨ high < low ∨ s.capacity < high))
    (hb : ¬ (maxCap < high ∨ s.capacity < maxCap)) :
    s.extractSlicedIndexes [low, high, maxCap] = .ok (low, high, maxCap) := by
  unfold Slice.extractSlicedIndexes Slice.Cap
  norm_num [List.getD_cons_zero, List.getD_cons_succ]
  simp [ha, hb]

theorem extractSliced2 {s : Slice} {low high : Int}
    (ha : ¬ (low < 0 ∨ high < 0 ∨ high < low ∨ s.capacity < high)) :
    s.extractSlicedIndexes [low, high] = .ok (low, high, s.capacity) := by
  unfold Slice.extractSlicedIndexes Slice.Cap
  norm_num [List.getD_cons_zero, List.getD_cons_succ]
  simp [ha]
  omega

theorem Sliced3_ok {s : Slice} {gs : GoSlice} {low high maxCap : Int}
    (hgs : s.array = some gs) (hcap : s.capacity = (gs.gcap : Int))
    (h0 : 0 ≤ low) (h1 : low ≤ high) (h2 : high ≤ maxCap) (h3 : maxCap ≤ s.capacity)
    (h : Heap α) :
    Slice.Sliced s [low, high, maxCap] h =
      .ok ⟨some ⟨gs.buf, gs.off + low.toNat, (high - low).toNat, (maxCap - low).toNat⟩,
           high - low, maxCap - low⟩ := by
  unfold Slice.Sliced
  rw [extractSliced3 (by omega) (by omega), hgs]
  simp only
  rw [if_pos ⟨h0, h1, h2, by omega⟩]

theorem Sliced2_ok {s : Slice} {gs : GoSlice} (low high : Int)
    (hgs : s.array = some gs) (hcap : s.capacity = (gs.gcap : Int))
    (h0 : 0 ≤ low) (h1 : low ≤ high) (h2 : high ≤ s.capacity) (h : Heap α) :
    Slice.Sliced s [low, high] h =
      .ok ⟨some ⟨gs.buf, gs.off + low.toNat, (high - low).toNat,
                 (s.capacity - low).toNat⟩,
           high - low, s.capacity - low⟩ := by
  unfold Slice.Sliced
  rw [extractSliced2 (by omega), hgs]
  simp only
  rw [if_pos ⟨h0, h1, h2, by omega⟩]

end OpLemmas

/-- The failure condition the specification enumerates for `Sliced`:
argument count not 2 or 3, `low < 0`, `high < 0`, `low > high`,
`high > Cap()`, `maxCap < high`, or `maxCap > Cap()`, with `maxCap`
defaulting to the parent's capacity when only two indexes are given. -/
abbrev slicedBad (s : Slice) (indexes : List Int) : Prop :=
  (indexes.length ≠ 2 ∧ indexes.length ≠ 3)
  ∨ indexes.getD 0 0 < 0
  ∨ indexes.getD 1 0 < 0
  ∨ indexes.getD 1 0 < indexes.getD 0 0
  ∨ s.Cap < indexes.getD 1 0
  ∨ (if indexes.length = 3 then indexes.getD 2 0 else s.Cap) < indexes.getD 1 0
  ∨ s.Cap < (if indexes.length = 3 then indexes.getD 2 0 else s.Cap)

/-- The failure condition the specification enumerates for construction:
no size argument, more than two size arguments, negative length,
negative capacity, or length greater than capacity (the capacity
defaulting to the length when only one size is given). -/
abbrev makeBad (size : List Int) : Prop :=
  size.length = 0 ∨ 2 < size.length
  ∨ size.getD 0 0 < 0
  ∨ (if size.length = 2 then size.getD 1 0 else size.getD 0 0) < 0
  ∨ (if size.length = 2 then size.getD 1 0 else size.getD 0 0) < size.getD 0 0

section ErrLemmas

variable {α : Type}

theorem extractSliced_invalidRange_iff (s : Slice) (indexes : List Int) :
    s.extractSlicedIndexes indexes = .error .invalidRange ↔ slicedBad s indexes := by
  by_cases hl3 : indexes.length = 3
  · simp only [Slice.extractSlicedIndexes, slicedBad, Slice.Cap, hl3, if_true]
    split_ifs with hc0 hc1 hc2 <;> simp_all [List.getD_eq_getElem?_getD] <;> omega
  · simp only [Slice.extractSlicedIndexes, slicedBad, Slice.Cap, hl3, if_false]
    split_ifs with hc0 hc1 hc2 <;> simp_all [List.getD_eq_getElem?_getD] <;> omega

theorem extractSliced_error_eq {s : Slice} {indexes : List Int} {e : GoErr}
    (hE : s.extractSlicedIndexes indexes = .error e) : e = .invalidRange := by
  simp only [Slice.extractSlicedIndexes] at hE
  split_ifs at hE <;> simp_all

theorem extractSliced_ok_bounds {s : Slice} {indexes : List Int}
    {low high nc : Int} (hE : s.extractSlicedIndexes indexes = .ok (low, high, nc)) :
    0 ≤ low ∧ low ≤ high ∧ high ≤ nc ∧ nc ≤ s.capacity := by
  simp only [Slice.extractSlicedIndexes, Slice.Cap] at hE
  split_ifs at hE <;> simp_all [List.getD_eq_getElem?_getD] <;> omega

theorem Sliced_invalidRange_iff (s : Slice) (indexes : List Int) (h : Heap α) :
    Slice.Sliced s indexes h = .error .invalidRange ↔
      s.extractSlicedIndexes indexes = .error .invalidRange := by
  unfold Slice.Sliced
  cases hE : s.extractSlicedIndexes indexes with
  | error e =>
    rcases extractSliced_error_eq hE
    simp
  | ok tr =>
    obtain ⟨low, high, nc⟩ := tr
    simp only
    cases s.array with
    | none => simp
    | some gs =>
      simp only
      split_ifs <;> simp

theorem extractMake_invalidSize_iff (size : List Int) :
    extractMakeIndexes size = .error .invalidSize ↔ makeBad size := by
  by_cases hl2 : size.length = 2
  · simp only [extractMakeIndexes, makeBad, hl2, if_true]
    split_ifs with hc0 hc1 hc2 hc3 hc4 <;> simp_all [List.getD_eq_getElem?_getD] <;> omega
  · simp only [extractMakeIndexes, makeBad, hl2, if_false]
    split_ifs with hc0 hc1 hc2 hc3 hc4 <;> simp_all [List.getD_eq_getElem?_getD] <;> omega

theorem extractMake_error_eq {size : List Int} {e : GoErr}
    (hE : extractMakeIndexes size = .error e) : e = .invalidSize := by
  simp only [extractMakeIndexes] at hE
  split_ifs at hE <;> simp_all

theorem Make_invalidSize_iff (zero : α) (size : List Int) (h : Heap α) :
    Make zero size h = .error .invalidSize ↔ makeBad size := by
  rw [← extractMake_invalidSize_iff]
  unfold Make
  cases hE : extractMakeIndexes size with
  | error e =>
    rcases extractMake_error_eq hE
    simp
  | ok p =>
    obtain ⟨l, c⟩ := p
    simp

end ErrLemmas

section ShapeLemmas

variable {α : Type}

theorem extractMake_ok_bounds {size : List Int} {l c : Int}
    (hE : extractMakeIndexes size = .ok (l, c)) : 0 ≤ l ∧ l ≤ c := by
  simp only [extractMakeIndexes] at hE
  split_ifs at hE <;> simp_all [List.getD_eq_getElem?_getD] <;> omega

theorem Make_ok_shape {zero : α} {size : List Int} {h : Heap α} {s : Slice}
    {h' : Heap α} (hM : Make zero size h = .ok (s, h')) :
    ∃ l c, extractMakeIndexes size = .ok (l, c)
      ∧ s = ⟨some ⟨h.length, 0, l.toNat, c.toNat⟩, l, c⟩
      ∧ h' = h ++ [List.replicate c.toNat zero] := by
  unfold Make at hM
  split at hM
  · exact absurd hM (by simp)
  · rename_i l c heq
    simp only [Except.ok.injEq, Prod.mk.injEq] at hM
    exact ⟨l, c, heq, hM.1.symm, hM.2.symm⟩

theorem Sliced_ok_shape {s : Slice} {indexes : List Int} {h : Heap α} {t : Slice}
    (hS : Slice.Sliced s indexes h = .ok t) :
    ∃ low high nc gs, s.extractSlicedIndexes indexes = .ok (low, high, nc)
      ∧ s.array = some gs
      ∧ (0 ≤ low ∧ low ≤ high ∧ high ≤ nc ∧ nc ≤ (gs.gcap : Int))
      ∧ t = ⟨some ⟨gs.buf, gs.off + low.toNat, (high - low).toNat,
              (nc - low).toNat⟩, high - low, nc - low⟩ := by
  unfold Slice.Sliced at hS
  split at hS
  · exact absurd hS (by simp)
  · rename_i low high nc heq
    split at hS
    · exact absurd hS (by simp)
    · rename_i gs hgs
      split at hS
      · rename_i hcnd
        simp only [Except.ok.injEq] at hS
        exact ⟨low, high, nc, gs, heq, hgs, hcnd, hS.symm⟩
      · exact absurd hS (by simp)

theorem extractMake2_ok_vals {a b l c : Int}
    (hE : extractMakeIndexes [a, b] = .ok (l, c)) : l = a ∧ c = b := by
  simp only [extractMakeIndexes] at hE
  split_ifs at hE <;> simp_all [List.getD_eq_getElem?_getD]

theorem growSlice_ok_shape [Inhabited α] {zero : α} {fuel : Nat} {s : Slice}
    {newLen : Int} {h : Heap α} {t : Slice} {h1 : Heap α}
    (hG : growSlice zero fuel s newLen h = .ok (t, h1)) :
    ∃ newCap, nextSliceCapacity fuel newLen s.Cap = some newCap
      ∧ t = ⟨some ⟨h.length, 0, newLen.toNat, newCap.toNat⟩, newLen, newCap⟩
      ∧ 0 ≤ newLen ∧ newLen ≤ newCap := by
  unfold growSlice at hG
  cases hnc : nextSliceCapacity fuel newLen s.Cap with
  | none => simp [hnc] at hG
  | some newCap =>
    simp only [hnc] at hG
    cases heqM : Make zero [newLen, newCap] h with
    | error e => simp [heqM] at hG
    | ok p =>
      obtain ⟨newS, h2⟩ := p
      simp only [heqM] at hG
      obtain ⟨l, c, hex, hsS, hhS⟩ := Make_ok_shape heqM
      obtain ⟨hla, hcb⟩ := extractMake2_ok_vals hex
      obtain ⟨hb0, hb1⟩ := extractMake_ok_bounds hex
      cases heqL : getSetLoop newS s 0 s.Len.toNat h2 with
      | error e => simp [heqL] at hG
      | ok h3 =>
        simp only [heqL, Except.ok.injEq, Prod.mk.injEq] at hG
        refine ⟨newCap, rfl, ?_, by omega, by omega⟩
        rw [← hG.1, hsS, hla, hcb]

theorem Append_ok_cases [Inhabited α] {zero : α} {fuel : Nat} {s : Slice}
    {elems : List α} {h : Heap α} {t : Slice} {h' : Heap α}
    (hA : Append zero fuel s elems h = .ok (t, h')) :
    Slice.Sliced s [0, s.Len + (elems.length : Int)] h = .ok t
    ∨ ∃ h1, growSlice zero fuel s (s.Len + (elems.length : Int)) h = .ok (t, h1) := by
  simp only [Append] at hA
  by_cases hc : s.Len + (elems.length : Int) ≤ s.Cap
  · rw [if_pos hc] at hA
    cases hSl : Slice.Sliced s [0, s.Len + (elems.length : Int)] h with
    | error e => simp [hSl] at hA
    | ok u =>
      simp only [hSl] at hA
      cases heqL : setLoop u s.Len elems h with
      | error e => simp [heqL] at hA
      | ok h2 =>
        simp only [heqL, Except.ok.injEq, Prod.mk.injEq] at hA
        refine Or.inl ?_
        rw [← hA.1]
  · rw [if_neg hc] at hA
    cases hG : growSlice zero fuel s (s.Len + (elems.length : Int)) h with
    | error e => simp [hG] at hA
    | ok p =>
      obtain ⟨res, h1⟩ := p
      simp only [hG] at hA
      cases heqL : setLoop res s.Len elems h1 with
      | error e => simp [heqL] at hA
      | ok h2 =>
        simp only [heqL, Except.ok.injEq, Prod.mk.injEq] at hA
        refine Or.inr ⟨h1, ?_⟩
        rw [← hA.1]

end ShapeLemmas

/-- C1 (counterexample): the claim says `Set(i, x)` fails iff `i < 0` or
`i ≥ Cap()`, and in particular succeeds for `Len() ≤ i < Cap()`.  For the
view built by `Make(0, 1)` (length 0, capacity 1) the index 0 satisfies
neither `0 < 0` nor `0 ≥ Cap() = 1`, so the claim predicts success, but
the code fails with `IndexOutOfRange`: its bound is `len(*s.array)`,
which equals the view's length, not its capacity. -/
theorem C1_set_capacity_counterexample :
    Make (0 : Int) [0, 1] ([] : Heap Int) = .ok (⟨some ⟨0, 0, 0, 1⟩, 0, 1⟩, [[0]])
    ∧ (⟨some ⟨0, 0, 0, 1⟩, 0, 1⟩ : Slice).Cap = 1
    ∧ ¬ ((0 : Int) < 0 ∨ (⟨some ⟨0, 0, 0, 1⟩, 0, 1⟩ : Slice).Cap ≤ 0)
    ∧ Slice.Set (⟨some ⟨0, 0, 0, 1⟩, 0, 1⟩ : Slice) 0 (7 : Int) [[0]] =
        .error .indexOutOfRange :=
  ⟨rfl, rfl, by decide, rfl⟩

/-- C1 (amended): for every well-formed view (as produced by the public
operations), `Set(i, x)` fails with `IndexOutOfRange` iff `i < 0` or
`i ≥ v.Len()` — the bound is the Go length of the backing header, which
coincides with the view's length, not with its capacity.  In particular
writes into the capacity region `Len() ≤ i < Cap()` fail, and for
`0 ≤ i < Len()` the call succeeds and overwrites the backing slot at
offset `i`. -/
theorem C1_set_bounds_amended {α : Type} (h : Heap α) (s : Slice) (gs : GoSlice)
    (i : Int) (x : α) (hwf : wfOn h s gs) :
    (Slice.Set s i x h = .error .indexOutOfRange ↔ (i < 0 ∨ s.Len ≤ i))
    ∧ (0 ≤ i → i < s.Len →
        Slice.Set s i x h = .ok (hWrite h gs.buf (gs.off + i.toNat) x))
    ∧ (s.Len ≤ i → i < s.Cap → Slice.Set s i x h = .error .indexOutOfRange) := by
  obtain ⟨hgs, hlen, hcap, hle, hb, hoff⟩ := hwf
  unfold Slice.Len Slice.Cap
  refine ⟨?_, ?_, ?_⟩
  · rw [Set_error_iff x hgs]
    omega
  · intro h0 hi
    exact Set_ok x hgs h0 (by omega)
  · intro h1 h2
    rw [Set_error_iff x hgs]
    omega

/-- C1 (witness for the amended theorem): a concrete well-formed view of
length 1 and capacity 2 over the one-buffer heap `[[5, 6]]`; `Set` at
index 1 (inside the capacity region, at the length bound) fails. -/
theorem C1_set_bounds_amended_witness :
    wfOn ([[5, 6]] : Heap Int) ⟨some ⟨0, 0, 1, 2⟩, 1, 2⟩ ⟨0, 0, 1, 2⟩
    ∧ (⟨some ⟨0, 0, 1, 2⟩, 1, 2⟩ : Slice).Len ≤ 1
    ∧ (1 : Int) < (⟨some ⟨0, 0, 1, 2⟩, 1, 2⟩ : Slice).Cap
    ∧ Slice.Set (⟨some ⟨0, 0, 1, 2⟩, 1, 2⟩ : Slice) 1 (7 : Int) [[5, 6]] =
        .error .indexOutOfRange :=
  ⟨by decide, by decide, by decide,
    (C1_set_bounds_amended [[5, 6]] ⟨some ⟨0, 0, 1, 2⟩, 1, 2⟩ ⟨0, 0, 1, 2⟩ 1 7
      (by decide)).2.2 (by decide) (by decide)⟩

/-- C6: the claim says `Append` never fails, for every view including the
nil view.  The code contradicts this: on the zero-value nil view with no
appended values, `resLen = 0 ≤ Cap() = 0` sends `Append` into
`s.Sliced(0, 0)`, whose slice expression `(*s.array)[0:0:0]` dereferences
the nil backing pointer.  With at least one value the grow path is taken
instead and the call succeeds, which shows the failure is specific to
the empty append on the nil view. -/
theorem C6_append_nil_empty_bug :
    Append (0 : Int) 64 (⟨none, 0, 0⟩ : Slice) [] ([] : Heap Int) = .error .nilDeref
    ∧ Append (0 : Int) 64 (⟨none, 0, 0⟩ : Slice) [5] ([] : Heap Int) =
        .ok (⟨some ⟨0, 0, 1, 1⟩, 1, 1⟩, [[5]]) :=
  ⟨rfl, rfl⟩

/-- C8 (counterexample): on the zero-value nil view, `Sliced(0, 0)`
satisfies none of the enumerated `InvalidRange` conditions, so the claim
("otherwise it succeeds") predicts success; the code instead fails by
dereferencing the nil backing pointer in the slice expression. -/
theorem C8_sliced_nil_counterexample :
    Slice.Sliced (⟨none, 0, 0⟩ : Slice) [0, 0] ([] : Heap Int) = .error .nilDeref
    ∧ GoErr.nilDeref ≠ GoErr.invalidRange
    ∧ ¬ slicedBad (⟨none, 0, 0⟩ : Slice) [0, 0] :=
  ⟨rfl, by decide, by decide⟩

/-- C8 (amended): for every well-formed view, `Sliced` fails with
`InvalidRange` iff the argument count is not 2 or 3, `low < 0`,
`high < 0`, `low > high`, `high > Cap()`, `maxCap < high`, or
`maxCap > Cap()` (with `maxCap` defaulting to `Cap()`); when none of
these holds it succeeds provided the view has a backing buffer — the nil
view instead fails with a nil dereference. -/
theorem C8_sliced_invalidRange_amended {α : Type} (s : Slice) (indexes : List Int)
    (h : Heap α) (gs : GoSlice) (hwf : wfOn h s gs) :
    (Slice.Sliced s indexes h = .error .invalidRange ↔ slicedBad s indexes)
    ∧ (¬ slicedBad s indexes → ∃ t, Slice.Sliced s indexes h = .ok t) := by
  obtain ⟨hgs, hlen, hcap, hle, hb, hoff⟩ := hwf
  constructor
  · rw [Sliced_invalidRange_iff, extractSliced_invalidRange_iff]
  · intro hbad
    have hne : ¬ (s.extractSlicedIndexes indexes = .error .invalidRange) := by
      rw [extractSliced_invalidRange_iff]
      exact hbad
    cases hE : s.extractSlicedIndexes indexes with
    | error e => exact absurd (extractSliced_error_eq hE ▸ hE) hne
    | ok tr =>
      obtain ⟨low, high, nc⟩ := tr
      obtain ⟨g0, g1, g2, g3⟩ := extractSliced_ok_bounds hE
      refine ⟨⟨some ⟨gs.buf, gs.off + low.toNat, (high - low).toNat,
        (nc - low).toNat⟩, high - low, nc - low⟩, ?_⟩
      unfold Slice.Sliced
      rw [hE, hgs]
      simp only
      rw [if_pos ⟨g0, g1, g2, by omega⟩]

/-- C8 (witness for the amended theorem): the view `[1,2,3,4,5]` of
length and capacity 5; `Sliced(1, 3)` triggers none of the enumerated
conditions and succeeds. -/
theorem C8_sliced_invalidRange_amended_witness :
    wfOn ([[1, 2, 3, 4, 5]] : Heap Int) ⟨some ⟨0, 0, 5, 5⟩, 5, 5⟩ ⟨0, 0, 5, 5⟩
    ∧ ¬ slicedBad (⟨some ⟨0, 0, 5, 5⟩, 5, 5⟩ : Slice) [1, 3]
    ∧ (∃ t, Slice.Sliced (⟨some ⟨0, 0, 5, 5⟩, 5, 5⟩ : Slice) [1, 3]
              ([[1, 2, 3, 4, 5]] : Heap Int) = .ok t) :=
  ⟨by decide, by decide,
    (C8_sliced_invalidRange_amended ⟨some ⟨0, 0, 5, 5⟩, 5, 5⟩ [1, 3]
      [[1, 2, 3, 4, 5]] ⟨0, 0, 5, 5⟩ (by decide)).2 (by decide)⟩

/-- C9: construction fails with `InvalidSize` iff no size argument is
given, more than two are given, the length is negative, the capacity is
negative, or the length exceeds the capacity; and for every valid pair
`0 ≤ length ≤ capacity`, `Make(length, capacity)` returns a non-nil view
with `Len() = length` and `Cap() = capacity`, backed by a freshly
allocated (its buffer id is the previous heap size) zero-initialized
buffer of exactly `capacity` elements. -/
theorem C9_make_spec {α : Type} (zero : α) :
    (∀ (size : List Int) (h : Heap α),
        Make zero size h = .error .invalidSize ↔ makeBad size)
    ∧ (∀ (l c : Int) (h : Heap α), 0 ≤ l → l ≤ c →
        Make zero [l, c] h =
          .ok (⟨some ⟨h.length, 0, l.toNat, c.toNat⟩, l, c⟩,
               h ++ [List.replicate c.toNat zero])
        ∧ (⟨some ⟨h.length, 0, l.toNat, c.toNat⟩, l, c⟩ : Slice).Len = l
        ∧ (⟨some ⟨h.length, 0, l.toNat, c.toNat⟩, l, c⟩ : Slice).Cap = c
        ∧ (⟨some ⟨h.length, 0, l.toNat, c.toNat⟩, l, c⟩ : Slice).IsNil = false
        ∧ (List.replicate c.toNat zero).length = c.toNat) := by
  refine ⟨fun size h => Make_invalidSize_iff zero size h, fun l c h h0 hlc => ?_⟩
  exact ⟨Make2_ok zero h0 hlc h, rfl, rfl, rfl, List.length_replicate ..⟩

/-- C9 (witness): `Make(2, 5)` on the empty heap yields the non-nil view
of length 2 and capacity 5 over a fresh zero buffer of 5 slots. -/
theorem C9_make_spec_witness :
    (0 : Int) ≤ 2 ∧ (2 : Int) ≤ 5
    ∧ (Make (0 : Int) [2, 5] ([] : Heap Int) =
          .ok (⟨some ⟨0, 0, 2, 5⟩, 2, 5⟩, [[0, 0, 0, 0, 0]])
        ∧ (⟨some ⟨0, 0, 2, 5⟩, 2, 5⟩ : Slice).Len = 2
        ∧ (⟨some ⟨0, 0, 2, 5⟩, 2, 5⟩ : Slice).Cap = 5
        ∧ (⟨some ⟨0, 0, 2, 5⟩, 2, 5⟩ : Slice).IsNil = false
        ∧ (List.replicate (5 : Int).toNat (0 : Int)).length = (5 : Int).toNat) :=
  ⟨by decide, by decide, (C9_make_spec (0 : Int)).2 2 5 [] (by decide) (by decide)⟩

/-- C10: every reachable view satisfies `0 ≤ length ≤ capacity`: the
zero-value nil view has length = capacity = 0, and every view returned
by `Make`, `New`, `Sliced` or `Append` (whenever the call succeeds)
satisfies `0 ≤ Len() ≤ Cap()`. -/
theorem C10_length_le_capacity {α : Type} [Inhabited α] (zero : α) :
    ((⟨none, 0, 0⟩ : Slice).Len = 0 ∧ (⟨none, 0, 0⟩ : Slice).Cap = 0)
    ∧ (∀ (size : List Int) (h : Heap α) (s : Slice) (h' : Heap α),
        Make zero size h = .ok (s, h') → 0 ≤ s.Len ∧ s.Len ≤ s.Cap)
    ∧ (∀ (elems : List α) (h : Heap α) (s : Slice) (h' : Heap α),
        New zero elems h = .ok (s, h') → 0 ≤ s.Len ∧ s.Len ≤ s.Cap)
    ∧ (∀ (s : Slice) (indexes : List Int) (h : Heap α) (t : Slice),
        Slice.Sliced s indexes h = .ok t → 0 ≤ t.Len ∧ t.Len ≤ t.Cap)
    ∧ (∀ (fuel : Nat) (s : Slice) (elems : List α) (h : Heap α) (t : Slice)
        (h' : Heap α),
        Append zero fuel s elems h = .ok (t, h') → 0 ≤ t.Len ∧ t.Len ≤ t.Cap) := by
  have hmake : ∀ (size : List Int) (h : Heap α) (s : Slice) (h' : Heap α),
      Make zero size h = .ok (s, h') → 0 ≤ s.Len ∧ s.Len ≤ s.Cap := by
    intro size h s h' hM
    obtain ⟨l, c, hex, hsS, _⟩ := Make_ok_shape hM
    obtain ⟨b0, b1⟩ := extractMake_ok_bounds hex
    subst hsS
    exact ⟨b0, b1⟩
  have hsliced : ∀ (s : Slice) (indexes : List Int) (h : Heap α) (t : Slice),
      Slice.Sliced s indexes h = .ok t → 0 ≤ t.Len ∧ t.Len ≤ t.Cap := by
    intro s indexes h t hS
    obtain ⟨low, high, nc, gs, hex, hgs, ⟨g0, g1, g2, g3⟩, htS⟩ := Sliced_ok_shape hS
    subst htS
    unfold Slice.Len Slice.Cap
    constructor <;> simp <;> omega
  refine ⟨⟨rfl, rfl⟩, hmake, ?_, hsliced, ?_⟩
  · intro elems h s h' hN
    unfold New at hN
    cases heqM : Make zero [(elems.length : Int)] h with
    | error e => simp [heqM] at hN
    | ok p =>
      obtain ⟨s0, h1⟩ := p
      simp only [heqM] at hN
      cases heqL : setLoop s0 0 elems h1 with
      | error e => simp [heqL] at hN
      | ok h2 =>
        simp only [heqL, Except.ok.injEq, Prod.mk.injEq] at hN
        exact hN.1 ▸ hmake [(elems.length : Int)] h s0 h1 heqM
  · intro fuel s elems h t h' hA
    rcases Append_ok_cases hA with hSl | ⟨h1, hG⟩
    · exact hsliced s [0, s.Len + (elems.length : Int)] h t hSl
    · obtain ⟨nc, hnc, hts, b0, b1⟩ := growSlice_ok_shape hG
      subst hts
      exact ⟨b0, b1⟩

/-- C10 (witness): the invariant instantiated on concrete successful
calls: `Make(2, 5)`, `New(7)`, `Sliced(1, 3)` of a five-element view,
and `Append` of three values to a full view of capacity 2. -/
theorem C10_length_le_capacity_witness :
    (0 ≤ (⟨some ⟨0, 0, 2, 5⟩, 2, 5⟩ : Slice).Len
      ∧ (⟨some ⟨0, 0, 2, 5⟩, 2, 5⟩ : Slice).Len ≤ (⟨some ⟨0, 0, 2, 5⟩, 2, 5⟩ : Slice).Cap)
    ∧ (0 ≤ (⟨some ⟨0, 0, 1, 1⟩, 1, 1⟩ : Slice).Len
      ∧ (⟨some ⟨0, 0, 1, 1⟩, 1, 1⟩ : Slice).Len ≤ (⟨some ⟨0, 0, 1, 1⟩, 1, 1⟩ : Slice).Cap)
    ∧ (0 ≤ (⟨some ⟨0, 1, 2, 4⟩, 2, 4⟩ : Slice).Len
      ∧ (⟨some ⟨0, 1, 2, 4⟩, 2, 4⟩ : Slice).Len ≤ (⟨some ⟨0, 1, 2, 4⟩, 2, 4⟩ : Slice).Cap)
    ∧ (0 ≤ (⟨some ⟨1, 0, 5, 5⟩, 5, 5⟩ : Slice).Len
      ∧ (⟨some ⟨1, 0, 5, 5⟩, 5, 5⟩ : Slice).Len ≤ (⟨some ⟨1, 0, 5, 5⟩, 5, 5⟩ : Slice).Cap) :=
  ⟨(C10_length_le_capacity (0 : Int)).2.1 [2, 5] [] ⟨some ⟨0, 0, 2, 5⟩, 2, 5⟩
      [[0, 0, 0, 0, 0]] rfl,
    (C10_length_le_capacity (0 : Int)).2.2.1 [7] [] ⟨some ⟨0, 0, 1, 1⟩, 1, 1⟩ [[7]] rfl,
    (C10_length_le_capacity (0 : Int)).2.2.2.1 ⟨some ⟨0, 0, 5, 5⟩, 5, 5⟩ [1, 3]
      [[1, 2, 3, 4, 5]] ⟨some ⟨0, 1, 2, 4⟩, 2, 4⟩ rfl,
    (C10_length_le_capacity (0 : Int)).2.2.2.2 64 ⟨some ⟨0, 0, 2, 2⟩, 2, 2⟩ [9, 9, 9]
      [[1, 2]] ⟨some ⟨1, 0, 5, 5⟩, 5, 5⟩ [[1, 2], [1, 2, 9, 9, 9]] rfl⟩

/-- C7: for every well-formed view and valid `low ≤ high ≤ maxCap ≤ Cap()`
(with `maxCap` defaulting to `Cap()` in the two-argument form),
`Sliced(low, high, maxCap)` succeeds and returns a view over the same
backing buffer at offset `low` relative to the parent, with
`Len() = high - low` and `Cap() = maxCap - low`, making no copy (the
heap is not even passed back); mutation through the sub-view at index
`i` is visible through the parent at index `low + i`. -/
theorem C7_sliced_subview {α : Type} [Inhabited α] (h : Heap α) (s : Slice)
    (gs : GoSlice) (low high maxCap : Int) (hwf : wfOn h s gs)
    (h0 : 0 ≤ low) (h1 : low ≤ high) (h2 : high ≤ maxCap) (h3 : maxCap ≤ s.Cap) :
    ∃ t, Slice.Sliced s [low, high, maxCap] h = .ok t
      ∧ Slice.Sliced s [low, high] h = Slice.Sliced s [low, high, s.Cap] h
      ∧ t.array = some ⟨gs.buf, gs.off + low.toNat, (high - low).toNat,
          (maxCap - low).toNat⟩
      ∧ t.Len = high - low ∧ t.Cap = maxCap - low
      ∧ ∀ (i : Int) (x : α) (h' : Heap α), 0 ≤ i → i < t.Len → low + i < s.Len →
          Slice.Set t i x h = .ok h' → Slice.Get s (low + i) h' = .ok x := by
  obtain ⟨hgs, hlen, hcap, hle, hb, hoff⟩ := hwf
  unfold Slice.Cap at h3
  refine ⟨_, Sliced3_ok hgs hcap h0 h1 h2 h3 h, ?_, rfl, rfl, rfl, ?_⟩
  · unfold Slice.Cap
    rw [Sliced2_ok low high hgs hcap h0 h1 (by omega) h,
      Sliced3_ok hgs hcap h0 h1 (by omega) (le_refl s.capacity) h]
  · intro i x h' hi0 hit hils hset
    unfold Slice.Len at hit hils
    simp only at hit
    have hsetv := Set_ok (h := h) x
      (show Slice.array ⟨some ⟨gs.buf, gs.off + low.toNat, (high - low).toNat,
        (maxCap - low).toNat⟩, high - low, maxCap - low⟩ =
        some ⟨gs.buf, gs.off + low.toNat, (high - low).toNat, (maxCap - low).toNat⟩
        from rfl) hi0 (by simp only; omega)
    rw [hset] at hsetv
    simp only [Except.ok.injEq] at hsetv
    rw [hsetv]
    have hget := Get_ok (h := hWrite h gs.buf (gs.off + low.toNat + i.toNat) x)
      (i := low + i) hgs hlen (by omega) (by omega)
    rw [hget]
    have harith : gs.off + (low + i).toNat = gs.off + low.toNat + i.toNat := by omega
    rw [harith, hRead_hWrite_self ?_]
    rw [List.getD_eq_getElem?_getD] at hoff ⊢
    omega

/-- C7 (witness): the spec's own example — `v` holds `[1,2,3,4,5]`,
`s = v.Sliced(1,3)` has `Len() = 2`, `Cap() = 4`, `Get(0) = 2`, and
`s.Set(0, 99)` makes `v.Get(1) = 99`. -/
theorem C7_sliced_subview_witness :
    wfOn ([[1, 2, 3, 4, 5]] : Heap Int) ⟨some ⟨0, 0, 5, 5⟩, 5, 5⟩ ⟨0, 0, 5, 5⟩
    ∧ (∃ t, Slice.Sliced (⟨some ⟨0, 0, 5, 5⟩, 5, 5⟩ : Slice) [1, 3, 5]
            ([[1, 2, 3, 4, 5]] : Heap Int) = .ok t
        ∧ Slice.Sliced (⟨some ⟨0, 0, 5, 5⟩, 5, 5⟩ : Slice) [1, 3]
            ([[1, 2, 3, 4, 5]] : Heap Int) =
          Slice.Sliced (⟨some ⟨0, 0, 5, 5⟩, 5, 5⟩ : Slice)
            [1, 3, (⟨some ⟨0, 0, 5, 5⟩, 5, 5⟩ : Slice).Cap] ([[1, 2, 3, 4, 5]] : Heap Int)
        ∧ t.array = some ⟨0, 0 + (1 : Int).toNat, ((3 : Int) - 1).toNat,
            ((5 : Int) - 1).toNat⟩
        ∧ t.Len = 3 - 1 ∧ t.Cap = 5 - 1
        ∧ ∀ (i : Int) (x : Int) (h' : Heap Int), 0 ≤ i → i < t.Len →
            1 + i < (⟨some ⟨0, 0, 5, 5⟩, 5, 5⟩ : Slice).Len →
            Slice.Set t i x [[1, 2, 3, 4, 5]] = .ok h' →
            Slice.Get (⟨some ⟨0, 0, 5, 5⟩, 5, 5⟩ : Slice) (1 + i) h' = .ok x)
    ∧ Slice.Get (⟨some ⟨0, 1, 2, 4⟩, 2, 4⟩ : Slice) 0 ([[1, 2, 3, 4, 5]] : Heap Int) =
        .ok 2
    ∧ Slice.Set (⟨some ⟨0, 1, 2, 4⟩, 2, 4⟩ : Slice) 0 (99 : Int)
        ([[1, 2, 3, 4, 5]] : Heap Int) = .ok [[1, 99, 3, 4, 5]]
    ∧ Slice.Get (⟨some ⟨0, 0, 5, 5⟩, 5, 5⟩ : Slice) 1 ([[1, 99, 3, 4, 5]] : Heap Int) =
        .ok 99 :=
  ⟨by decide,
    C7_sliced_subview [[1, 2, 3, 4, 5]] ⟨some ⟨0, 0, 5, 5⟩, 5, 5⟩ ⟨0, 0, 5, 5⟩ 1 3 5
      (by decide) (by decide) (by decide) (by decide) (by decide),
    rfl, rfl, rfl⟩

section GrowLemmas

variable {α : Type}

theorem getD_append_self (h : Heap α) (l : List α) : (h ++ [l]).getD h.length [] = l := by
  rw [List.getD_eq_getElem?_getD, List.getElem?_append_right (le_refl _)]
  simp

theorem getD_append_lt (h : Heap α) (l : List α) {b : Nat} (hb : b < h.length) :
    (h ++ [l]).getD b [] = h.getD b [] := by
  rw [List.getD_eq_getElem?_getD, List.getElem?_append_left hb,
    ← List.getD_eq_getElem?_getD]

theorem wrap64_range (n : Int) : -2 ^ 63 ≤ wrap64 n ∧ wrap64 n < 2 ^ 63 := by
  unfold wrap64
  have h1 : 0 ≤ (n + 2 ^ 63) % 2 ^ 64 := Int.emod_nonneg _ (by norm_num)
  have h2 : (n + 2 ^ 63) % 2 ^ 64 < 2 ^ 64 := Int.emod_lt_of_pos _ (by norm_num)
  omega

theorem capLoop_some_range {newLen : Int} {fuel : Nat} {c0 c : Int}
    (hc : capLoop newLen fuel c0 = some c) :
    -2 ^ 63 ≤ c ∧ c < 2 ^ 63 ∧ toU64 newLen ≤ toU64 c := by
  induction fuel generalizing c0 with
  | zero => simp [capLoop] at hc
  | succ n ih =>
    simp only [capLoop] at hc
    split at hc
    · rename_i hcond
      obtain ⟨r1, r2⟩ := wrap64_range (c0 + goQuot c0 4)
      simp only [Option.some.injEq] at hc
      subst hc
      exact ⟨r1, r2, hcond⟩
    · exact ih hc

theorem toU64_eq_self {n : Int} (h0 : 0 ≤ n) (h1 : n < 2 ^ 64) : toU64 n = n :=
  Int.emod_eq_of_lt h0 h1

theorem nextCap_ge {fuel : Nat} {newLen oldCap nc : Int} (h0 : 0 ≤ newLen)
    (hlt : newLen < 2 ^ 63) (hnc : nextSliceCapacity fuel newLen oldCap = some nc) :
    newLen ≤ nc := by
  simp only [nextSliceCapacity] at hnc
  split_ifs at hnc with h1 h2
  · simp only [Option.some.injEq] at hnc
    omega
  · simp only [Option.some.injEq] at hnc
    omega
  · split at hnc
    · exact absurd hnc (by simp)
    · rename_i newCap hcl
      obtain ⟨r1, r2, r3⟩ := capLoop_some_range hcl
      simp only [Option.some.injEq] at hnc
      by_cases hz : newCap ≤ 0
      · rw [if_pos hz] at hnc
        omega
      · rw [if_neg hz] at hnc
        rw [toU64_eq_self h0 (by omega), toU64_eq_self (by omega) (by omega)] at r3
        omega

theorem Set_ok_shape {s : Slice} {gs : GoSlice} {i : Int} {x : α} {h h₂ : Heap α}
    (hgs : s.array = some gs) (hset : Slice.Set s i x h = .ok h₂) :
    h₂ = hWrite h gs.buf (gs.off + i.toNat) x ∧ 0 ≤ i ∧ i < (gs.glen : Int) := by
  unfold Slice.Set at hset
  simp only [hgs] at hset
  by_cases hn : i < 0
  · rw [if_pos hn] at hset
    exact absurd hset (by simp)
  · rw [if_neg hn] at hset
    by_cases hg : (gs.glen : Int) ≤ i
    · rw [if_pos hg] at hset
      exact absurd hset (by simp)
    · rw [if_neg hg] at hset
      simp only [Except.ok.injEq] at hset
      exact ⟨hset.symm, by omega, by omega⟩

theorem growSlice_eq [Inhabited α] (zero : α) (fuel : Nat) (h : Heap α) (s : Slice)
    (gs : GoSlice) (resLen nc : Int)
    (hgs : s.array = some gs) (hlen : s.length = (gs.glen : Int))
    (hb : gs.buf < h.length)
    (hnc : nextSliceCapacity fuel resLen s.Cap = some nc)
    (h0 : 0 ≤ resLen) (hge : resLen ≤ nc) (hsl : s.length ≤ resLen) :
    growSlice zero fuel s resLen h =
      .ok (⟨some ⟨h.length, 0, resLen.toNat, nc.toNat⟩, resLen, nc⟩,
           writeList h.length (h ++ [List.replicate nc.toNat zero]) 0
             (readList h gs.buf gs.off s.Len.toNat)) := by
  have hmk := Make2_ok zero h0 hge h
  have hGSL := getSetLoop_ok
    ⟨some ⟨h.length, 0, resLen.toNat, nc.toNat⟩, resLen, nc⟩ s
    rfl hgs hlen (Or.inl (by simp only; omega)) s.Len.toNat 0
    (h ++ [List.replicate nc.toNat zero]) (le_refl 0)
    (by simp only [Slice.Len]; omega) (by simp only [Slice.Len]; omega)
  simp only [Int.toNat_zero, Nat.add_zero, Nat.zero_add] at hGSL
  rw [readList_append h _ gs.off s.Len.toNat hb] at hGSL
  simp only [growSlice, hnc, hmk, hGSL]

end GrowLemmas

/-- C3: for every well-formed view `v` and values with
`resultLen = v.Len() + K + 1 ≤ v.Cap()`, `Append` succeeds and returns
exactly `v.Sliced(0, resultLen)` — the same backing buffer at the same
offset, with length `resultLen` and capacity `v.Cap()` — the heap gains
no new buffer, the `K + 1` values are written into the backing slots
`[v.Len(), resultLen)`, and those writes are readable through the
returned view (`v.Sliced(0, resultLen)`) at indices `v.Len() + j`. -/
theorem C3_append_within_capacity {α : Type} [Inhabited α] (zero : α) (fuel : Nat)
    (h : Heap α) (s : Slice) (gs : GoSlice) (elems : List α) (hwf : wfOn h s gs)
    (hcap : s.Len + (elems.length : Int) ≤ s.Cap) :
    ∃ t h',
      Append zero fuel s elems h = .ok (t, h')
      ∧ Slice.Sliced s [0, s.Len + (elems.length : Int)] h = .ok t
      ∧ t.array = some ⟨gs.buf, gs.off, (s.Len + (elems.length : Int)).toNat, gs.gcap⟩
      ∧ t.Len = s.Len + (elems.length : Int) ∧ t.Cap = s.Cap
      ∧ h'.length = h.length
      ∧ (∀ j, j < elems.length →
          hRead h' gs.buf (gs.off + s.Len.toNat + j) = elems.getD j default)
      ∧ (∀ j : Nat, j < elems.length →
          Slice.Get t (s.Len + (j : Int)) h' = .ok (elems.getD j default)) := by
  obtain ⟨hgs, hlen, hcapf, hle, hb, hoff⟩ := hwf
  unfold Slice.Len Slice.Cap at hcap ⊢
  have hS2 := Sliced2_ok 0 (s.length + (elems.length : Int))
    hgs hcapf (by omega) (by omega) (by omega) h
  rw [sub_zero, sub_zero] at hS2
  simp only [Int.toNat_zero, Nat.add_zero] at hS2
  rw [hcapf, Int.toNat_natCast] at hS2
  set t : Slice := ⟨some ⟨gs.buf, gs.off, (s.length + (elems.length : Int)).toNat,
    gs.gcap⟩, s.length + (elems.length : Int), s.capacity⟩ with ht
  have htarr : t.array = some ⟨gs.buf, gs.off, (s.length + (elems.length : Int)).toNat,
      gs.gcap⟩ := rfl
  have hS2' : Slice.Sliced s [0, s.length + (elems.length : Int)] h = .ok t := by
    rw [hS2, ht, hcapf]
  have hSL := setLoop_ok t htarr elems s.length h (by omega)
    (by simp only; omega)
  have hA : Append zero fuel s elems h =
      .ok (t, writeList gs.buf h (gs.off + s.length.toNat) elems) := by
    simp only [Append, Slice.Len, Slice.Cap]
    rw [if_pos hcap]
    simp only [hS2']
    simp only [hSL]
  have hbuflen : gs.off + s.length.toNat + elems.length ≤ (h.getD gs.buf []).length := by
    omega
  refine ⟨t, writeList gs.buf h (gs.off + s.length.toNat) elems, hA, hS2', rfl, rfl,
    (by rw [ht, hcapf]), length_writeList .., ?_, ?_⟩
  · intro j hj
    exact hRead_writeList_at hbuflen j hj
  · intro j hj
    have hget := Get_ok (h := writeList gs.buf h (gs.off + s.length.toNat) elems)
      (s := t) (i := s.length + (j : Int)) htarr (by simp only; omega) (by omega)
      (by simp only; omega)
    rw [hget]
    have harith : gs.off + (s.length + (j : Int)).toNat = gs.off + s.length.toNat + j := by
      omega
    rw [harith, hRead_writeList_at hbuflen j hj]

/-- C3 (witness): the spec's example — `v = Make(2, 5)` (zero-filled),
`Append(v, 7)` has length 3, shares the original buffer, and the new
value is readable at index 2 through the returned `v.Sliced(0, 3)`. -/
theorem C3_append_within_capacity_witness :
    wfOn ([[0, 0, 0, 0, 0]] : Heap Int) ⟨some ⟨0, 0, 2, 5⟩, 2, 5⟩ ⟨0, 0, 2, 5⟩
    ∧ (⟨some ⟨0, 0, 2, 5⟩, 2, 5⟩ : Slice).Len + ((1 : Nat) : Int) ≤
        (⟨some ⟨0, 0, 2, 5⟩, 2, 5⟩ : Slice).Cap
    ∧ (∃ t h',
        Append (0 : Int) 64 (⟨some ⟨0, 0, 2, 5⟩, 2, 5⟩ : Slice) [7]
            ([[0, 0, 0, 0, 0]] : Heap Int) = .ok (t, h')
        ∧ Slice.Sliced (⟨some ⟨0, 0, 2, 5⟩, 2, 5⟩ : Slice)
            [0, (⟨some ⟨0, 0, 2, 5⟩, 2, 5⟩ : Slice).Len + (([7] : List Int).length : Int)]
            ([[0, 0, 0, 0, 0]] : Heap Int) = .ok t
        ∧ t.array = some ⟨0, 0,
            ((⟨some ⟨0, 0, 2, 5⟩, 2, 5⟩ : Slice).Len + (([7] : List Int).length : Int)).toNat,
            5⟩
        ∧ t.Len = (⟨some ⟨0, 0, 2, 5⟩, 2, 5⟩ : Slice).Len + (([7] : List Int).length : Int)
        ∧ t.Cap = (⟨some ⟨0, 0, 2, 5⟩, 2, 5⟩ : Slice).Cap
        ∧ h'.length = ([[0, 0, 0, 0, 0]] : Heap Int).length
        ∧ (∀ j, j < ([7] : List Int).length →
            hRead h' 0 (0 + (⟨some ⟨0, 0, 2, 5⟩, 2, 5⟩ : Slice).Len.toNat + j) =
              ([7] : List Int).getD j default)
        ∧ (∀ j : Nat, j < ([7] : List Int).length →
            Slice.Get t ((⟨some ⟨0, 0, 2, 5⟩, 2, 5⟩ : Slice).Len + (j : Int)) h' =
              .ok (([7] : List Int).getD j default))) :=
  ⟨by decide, by decide,
    C3_append_within_capacity (0 : Int) 64 [[0, 0, 0, 0, 0]]
      ⟨some ⟨0, 0, 2, 5⟩, 2, 5⟩ ⟨0, 0, 2, 5⟩ [7] (by decide) (by decide)⟩

/-- C4: for every well-formed view `v` and values with
`resultLen = v.Len() + K + 1 > v.Cap()` (and a growth computation that
terminates within the given fuel, with int64-representable sizes),
`Append` allocates fresh backing storage (its buffer id is the previous
heap size, so it is distinct from every existing buffer), copies all
`v.Len()` existing elements into it, writes the new values after them,
has capacity at least `resultLen`, leaves every pre-existing buffer —
in particular `v`'s — unchanged, and shares no storage with `v`:
mutating the result through `Set` never changes anything observable
through `v` via `Get`, and `v`'s own length and capacity fields are
values, hence untouched. -/
theorem C4_append_beyond_capacity {α : Type} [Inhabited α] (zero : α) (fuel : Nat)
    (h : Heap α) (s : Slice) (gs : GoSlice) (elems : List α) (nc : Int)
    (hwf : wfOn h s gs)
    (hover : s.Cap < s.Len + (elems.length : Int))
    (hnc : nextSliceCapacity fuel (s.Len + (elems.length : Int)) s.Cap = some nc)
    (hbound : s.Len + (elems.length : Int) < 2 ^ 63) :
    ∃ t h',
      Append zero fuel s elems h = .ok (t, h')
      ∧ t.array = some ⟨h.length, 0, (s.Len + (elems.length : Int)).toNat, nc.toNat⟩
      ∧ t.Len = s.Len + (elems.length : Int) ∧ t.Cap = nc
      ∧ s.Len + (elems.length : Int) ≤ nc
      ∧ (∀ j, j < s.Len.toNat → hRead h' h.length j = hRead h gs.buf (gs.off + j))
      ∧ (∀ j, j < elems.length →
          hRead h' h.length (s.Len.toNat + j) = elems.getD j default)
      ∧ (∀ b, b < h.length → h'.getD b [] = h.getD b [])
      ∧ (∀ (i : Int) (x : α) (h₂ : Heap α), Slice.Set t i x h' = .ok h₂ →
          ∀ j : Int, Slice.Get s j h₂ = Slice.Get s j h) := by
  obtain ⟨hgs, hlen, hcapf, hle, hb, hoff⟩ := hwf
  have hLenEq : s.Len = s.length := rfl
  have h0 : (0 : Int) ≤ s.Len + (elems.length : Int) := by simp only [Slice.Len]; omega
  have hge : s.Len + (elems.length : Int) ≤ nc := nextCap_ge h0 hbound hnc
  have hsl : s.length ≤ s.Len + (elems.length : Int) := by simp only [Slice.Len]; omega
  have hG := growSlice_eq zero fuel h s gs (s.Len + (elems.length : Int)) nc hgs hlen
    hb hnc h0 hge hsl
  have hSL := setLoop_ok
    ⟨some ⟨h.length, 0, (s.Len + (elems.length : Int)).toNat, nc.toNat⟩,
      s.Len + (elems.length : Int), nc⟩ rfl elems s.Len
    (writeList h.length (h ++ [List.replicate nc.toNat zero]) 0
      (readList h gs.buf gs.off s.Len.toNat))
    (by simp only [Slice.Len]; omega) (by simp only [Slice.Len]; omega)
  simp only [Nat.zero_add] at hSL
  have hA : Append zero fuel s elems h =
      .ok (⟨some ⟨h.length, 0, (s.Len + (elems.length : Int)).toNat, nc.toNat⟩,
            s.Len + (elems.length : Int), nc⟩,
           writeList h.length
             (writeList h.length (h ++ [List.replicate nc.toNat zero]) 0
               (readList h gs.buf gs.off s.Len.toNat))
             s.Len.toNat elems) := by
    simp only [Append]
    rw [if_neg (by omega)]
    simp only [hG]
    simp only [hSL]
  have hreplen : (List.replicate nc.toNat zero).length = nc.toNat :=
    List.length_replicate ..
  have hmidbuf : ((writeList h.length (h ++ [List.replicate nc.toNat zero]) 0
      (readList h gs.buf gs.off s.Len.toNat)).getD h.length []).length = nc.toNat := by
    rw [length_getD_writeList, getD_append_self, hreplen]
  have hlenapp : (h ++ [List.replicate nc.toNat zero]).length = h.length + 1 := by
    simp
  refine ⟨_, _, hA, rfl, rfl, rfl, hge, ?_, ?_, ?_, ?_⟩
  · intro j hj
    rw [hRead_writeList_out (Or.inr (Or.inl hj))]
    have hj' : j < (readList h gs.buf gs.off s.Len.toNat).length := by
      rw [length_readList]; exact hj
    have := hRead_writeList_at (b := h.length)
      (h := h ++ [List.replicate nc.toNat zero]) (n := 0)
      (l := readList h gs.buf gs.off s.Len.toNat)
      (by rw [getD_append_self, hreplen, length_readList]
          simp only [Slice.Len]
          omega) j hj'
    rw [Nat.zero_add] at this
    rw [this, readList_getD hj]
  · intro j hj
    have := hRead_writeList_at (b := h.length)
      (h := writeList h.length (h ++ [List.replicate nc.toNat zero]) 0
        (readList h gs.buf gs.off s.Len.toNat))
      (n := s.Len.toNat) (l := elems)
      (by rw [hmidbuf]; simp only [Slice.Len]; omega) j hj
    exact this
  · intro b hbb
    rw [getD_writeList_ne _ _ _ (by omega), getD_writeList_ne _ _ _ (by omega),
      getD_append_lt h _ hbb]
  · intro i x h₂ hset j
    obtain ⟨hh2, hi0, hig⟩ := Set_ok_shape rfl hset
    by_cases hv : j < 0 ∨ s.Len ≤ j
    · unfold Slice.Get
      rw [if_pos hv, if_pos hv]
    · push_neg at hv
      simp only [Slice.Len] at hv
      rw [Get_ok (h := h₂) (i := j) hgs hlen hv.1 hv.2,
        Get_ok (h := h) (i := j) hgs hlen hv.1 hv.2]
      congr 1
      rw [hh2, hRead_hWrite_ne (Or.inl (show gs.buf ≠ h.length by omega)),
        hRead_writeList_out (Or.inl (show gs.buf ≠ h.length by omega)),
        hRead_writeList_out (Or.inl (show gs.buf ≠ h.length by omega)),
        hRead_append _ hb]

/-- C4 (witness): the spec's example — `v = Make(2, 2)` holding `[1, 2]`,
`Append(v, 9, 9, 9)` grows into a fresh buffer with capacity `5 ≥ 5`,
copies `[1, 2]`, writes `[9, 9, 9]`, and leaves `v`'s buffer unchanged. -/
theorem C4_append_beyond_capacity_witness :
    wfOn ([[1, 2]] : Heap Int) ⟨some ⟨0, 0, 2, 2⟩, 2, 2⟩ ⟨0, 0, 2, 2⟩
    ∧ (⟨some ⟨0, 0, 2, 2⟩, 2, 2⟩ : Slice).Cap <
        (⟨some ⟨0, 0, 2, 2⟩, 2, 2⟩ : Slice).Len + (([9, 9, 9] : List Int).length : Int)
    ∧ nextSliceCapacity 64
        ((⟨some ⟨0, 0, 2, 2⟩, 2, 2⟩ : Slice).Len + (([9, 9, 9] : List Int).length : Int))
        (⟨some ⟨0, 0, 2, 2⟩, 2, 2⟩ : Slice).Cap = some 5
    ∧ (∃ t h',
        Append (0 : Int) 64 (⟨some ⟨0, 0, 2, 2⟩, 2, 2⟩ : Slice) [9, 9, 9]
            ([[1, 2]] : Heap Int) = .ok (t, h')
        ∧ t.array = some ⟨([[1, 2]] : Heap Int).length, 0,
            ((⟨some ⟨0, 0, 2, 2⟩, 2, 2⟩ : Slice).Len +
              (([9, 9, 9] : List Int).length : Int)).toNat, (5 : Int).toNat⟩
        ∧ t.Len = (⟨some ⟨0, 0, 2, 2⟩, 2, 2⟩ : Slice).Len +
            (([9, 9, 9] : List Int).length : Int)
        ∧ t.Cap = 5
        ∧ (⟨some ⟨0, 0, 2, 2⟩, 2, 2⟩ : Slice).Len +
            (([9, 9, 9] : List Int).length : Int) ≤ 5
        ∧ (∀ j, j < (⟨some ⟨0, 0, 2, 2⟩, 2, 2⟩ : Slice).Len.toNat →
            hRead h' ([[1, 2]] : Heap Int).length j = hRead [[1, 2]] 0 (0 + j))
        ∧ (∀ j, j < ([9, 9, 9] : List Int).length →
            hRead h' ([[1, 2]] : Heap Int).length
              ((⟨some ⟨0, 0, 2, 2⟩, 2, 2⟩ : Slice).Len.toNat + j) =
            ([9, 9, 9] : List Int).getD j default)
        ∧ (∀ b, b < ([[1, 2]] : Heap Int).length →
            h'.getD b [] = ([[1, 2]] : Heap Int).getD b [])
        ∧ (∀ (i : Int) (x : Int) (h₂ : Heap Int), Slice.Set t i x h' = .ok h₂ →
            ∀ j : Int, Slice.Get (⟨some ⟨0, 0, 2, 2⟩, 2, 2⟩ : Slice) j h₂ =
              Slice.Get (⟨some ⟨0, 0, 2, 2⟩, 2, 2⟩ : Slice) j [[1, 2]])) :=
  ⟨by decide, by decide, by decide,
    C4_append_beyond_capacity (0 : Int) 64 [[1, 2]] ⟨some ⟨0, 0, 2, 2⟩, 2, 2⟩
      ⟨0, 0, 2, 2⟩ [9, 9, 9] 5 (by decide) (by decide) (by decide) (by decide)⟩

/-- The ×1.25 regime stated by the specification: repeatedly apply
`newCap += newCap / 4` starting from the old capacity until the result
reaches `newLen` (a do-while: the increment runs before each test).
Pure (non-wrapping) arithmetic; it coincides with the code's loop on the
overflow-free domain. -/
def specIter (newLen cap : Int) : Int :=
  if newLen ≤ cap + cap / 4 ∨ cap < 4 then cap + cap / 4
  else specIter newLen (cap + cap / 4)
termination_by (newLen - cap).toNat
decreasing_by
  simp_wf
  omega

theorem specIter_unfold (newLen cap : Int) :
    specIter newLen cap =
      if newLen ≤ cap + cap / 4 ∨ cap < 4 then cap + cap / 4
      else specIter newLen (cap + cap / 4) := by
  rw [specIter]

/-- The growth policy as the specification words it: requested length
when it exceeds pure doubling; doubling below the 1024 threshold;
iterated ×1.25 growth from the old capacity otherwise. -/
def nextCapacitySpec (newLen oldCap : Int) : Int :=
  if 2 * oldCap < newLen then newLen
  else if oldCap < 1024 then 2 * oldCap
  else specIter newLen oldCap

theorem wrap64_eq_self {n : Int} (h0 : -2 ^ 63 ≤ n) (h1 : n < 2 ^ 63) :
    wrap64 n = n := by
  unfold wrap64
  rw [Int.emod_eq_of_lt (by omega) (by omega)]
  omega

theorem capLoop_step {newLen c : Int} (f : Nat) (hc0 : 1024 ≤ c) (hc1 : c ≤ 2 ^ 61)
    (hn0 : 0 ≤ newLen) (hn1 : newLen ≤ 2 ^ 61) :
    capLoop newLen (f + 1) c =
      if newLen ≤ c + c / 4 then some (c + c / 4) else capLoop newLen f (c + c / 4) := by
  have hq : goQuot c 4 = c / 4 := Int.tdiv_eq_ediv (by omega) (by norm_num)
  have hw : wrap64 (c + goQuot c 4) = c + c / 4 := by
    rw [hq]
    exact wrap64_eq_self (by omega) (by omega)
  simp only [capLoop, hw]
  rw [toU64_eq_self hn0 (by omega), toU64_eq_self (n := c + c / 4) (by omega) (by omega)]

theorem capLoop_eq_specIter {newLen : Int} (hn0 : 0 ≤ newLen) (hn1 : newLen ≤ 2 ^ 61) :
    ∀ (f : Nat) (c : Int), 4 ≤ f → 1024 ≤ c → c ≤ 2 ^ 61 → newLen ≤ 2 * c →
      capLoop newLen f c = some (specIter newLen c) ∧ 1024 ≤ specIter newLen c := by
  intro f c hf hc0 hc1 hcn
  obtain ⟨f0, rfl⟩ : ∃ f0, f = f0 + 4 := ⟨f - 4, by omega⟩
  have hq1 : (0 : Int) ≤ c / 4 := Int.ediv_nonneg (by omega) (by norm_num)
  by_cases h1 : newLen ≤ c + c / 4
  · rw [show f0 + 4 = (f0 + 3) + 1 from rfl, capLoop_step (f0 + 3) hc0 hc1 hn0 hn1,
      if_pos h1, specIter_unfold, if_pos (Or.inl h1)]
    exact ⟨rfl, by omega⟩
  · have hc1next : c + c / 4 ≤ 2 ^ 61 := by omega
    rw [show f0 + 4 = (f0 + 3) + 1 from rfl, capLoop_step (f0 + 3) hc0 hc1 hn0 hn1,
      if_neg h1, specIter_unfold, if_neg (by omega)]
    set c1 := c + c / 4 with hc1def
    have hc10 : 1024 ≤ c1 := by omega
    have hq2 : (0 : Int) ≤ c1 / 4 := Int.ediv_nonneg (by omega) (by norm_num)
    by_cases h2 : newLen ≤ c1 + c1 / 4
    · rw [show f0 + 3 = (f0 + 2) + 1 from rfl, capLoop_step (f0 + 2) hc10 hc1next hn0 hn1,
        if_pos h2, specIter_unfold, if_pos (Or.inl h2)]
      exact ⟨rfl, by omega⟩
    · have hc2next : c1 + c1 / 4 ≤ 2 ^ 61 := by omega
      rw [show f0 + 3 = (f0 + 2) + 1 from rfl, capLoop_step (f0 + 2) hc10 hc1next hn0 hn1,
        if_neg h2, specIter_unfold, if_neg (by omega)]
      set c2 := c1 + c1 / 4 with hc2def
      have hc20 : 1024 ≤ c2 := by omega
      have hq3 : (0 : Int) ≤ c2 / 4 := Int.ediv_nonneg (by omega) (by norm_num)
      by_cases h3 : newLen ≤ c2 + c2 / 4
      · rw [show f0 + 2 = (f0 + 1) + 1 from rfl, capLoop_step (f0 + 1) hc20 hc2next hn0 hn1,
          if_pos h3, specIter_unfold, if_pos (Or.inl h3)]
        exact ⟨rfl, by omega⟩
      · have hc3next : c2 + c2 / 4 ≤ 2 ^ 61 := by omega
        rw [show f0 + 2 = (f0 + 1) + 1 from rfl, capLoop_step (f0 + 1) hc20 hc2next hn0 hn1,
          if_neg h3, specIter_unfold, if_neg (by omega)]
        set c3 := c2 + c2 / 4 with hc3def
        have hc30 : 1024 ≤ c3 := by omega
        have h4 : newLen ≤ c3 + c3 / 4 := by omega
        rw [capLoop_step f0 hc30 hc3next hn0 hn1, if_pos h4, specIter_unfold,
          if_pos (Or.inl h4)]
        exact ⟨rfl, by omega⟩

/-- C5: on the int64-representable, overflow-free domain (`newLen`,
`oldCap ≤ 2^61`), `nextSliceCapacity` implements exactly the two-regime
policy the specification states: `newLen` when `newLen > 2*oldCap`,
`2*oldCap` when `oldCap < 1024`, and otherwise the iterated
`newCap += newCap/4` loop from `oldCap` (whose result is positive here,
so the `≤ 0` overflow fallback never fires); concretely
`nextCapacity(1,0) = 1`, `nextCapacity(2,1) = 2`, and
`nextCapacity(1025,1024) = 1280`. -/
theorem C5_growth_policy :
    (∀ newLen oldCap : Int, 0 ≤ newLen → 0 ≤ oldCap → newLen ≤ 2 ^ 61 →
      oldCap ≤ 2 ^ 61 →
      nextSliceCapacity 64 newLen oldCap = some (nextCapacitySpec newLen oldCap))
    ∧ nextSliceCapacity 64 1 0 = some 1
    ∧ nextSliceCapacity 64 2 1 = some 2
    ∧ nextSliceCapacity 64 1025 1024 = some 1280
    ∧ nextCapacitySpec 1 0 = 1
    ∧ nextCapacitySpec 2 1 = 2
    ∧ nextCapacitySpec 1025 1024 = 1280 := by
  refine ⟨?_, rfl, rfl, rfl, rfl, rfl, ?_⟩
  · intro newLen oldCap h0 h1 h2 h3
    have hdc : wrap64 (oldCap + oldCap) = oldCap + oldCap :=
      wrap64_eq_self (by omega) (by omega)
    simp only [nextSliceCapacity, nextCapacitySpec, hdc]
    by_cases hb1 : oldCap + oldCap < newLen
    · rw [if_pos hb1, if_pos (show 2 * oldCap < newLen by omega)]
    · rw [if_neg hb1, if_neg (show ¬ 2 * oldCap < newLen by omega)]
      by_cases hb2 : oldCap < 1024
      · rw [if_pos hb2, if_pos hb2]
        congr 1
        ring
      · rw [if_neg hb2, if_neg hb2]
        obtain ⟨hcl, hpos⟩ := capLoop_eq_specIter h0 h2 64 oldCap (by omega)
          (by omega) h3 (by omega)
        simp only [hcl]
        rw [if_neg (by omega)]
  · rw [nextCapacitySpec, if_neg (by norm_num), if_neg (by norm_num),
      specIter_unfold, if_pos (by norm_num)]
    norm_num

/-- C5 (witness): the policy equivalence instantiated at
`(newLen, oldCap) = (1025, 1024)`, the spec's ×1.25-regime example. -/
theorem C5_growth_policy_witness :
    (0 : Int) ≤ 1025 ∧ (0 : Int) ≤ 1024 ∧ (1025 : Int) ≤ 2 ^ 61
    ∧ (1024 : Int) ≤ 2 ^ 61
    ∧ nextSliceCapacity 64 1025 1024 = some (nextCapacitySpec 1025 1024) :=
  ⟨by norm_num, by norm_num, by norm_num, by norm_num,
    C5_growth_policy.1 1025 1024 (by norm_num) (by norm_num) (by norm_num)
      (by norm_num)⟩

/-- C2 (counterexample): the claim says overlapping `Copy` behaves as if
every source element is read before any destination slot is
overwritten.  Build `v = New(1,2,3)`, `src = v.Sliced(0,2)` (slots 0–1),
`dst = v.Sliced(1,3)` (slots 1–2).  A snapshot copy would end with the
backing buffer `[1,1,2]` (dst slot 2 receives the pre-call `src[1] = 2`);
the code's forward loop reads `src[1]` after overwriting slot 1 and ends
with `[1,1,1]`, so `dst.Get(1)` is `1`, not the snapshot value `2`. -/
theorem C2_copy_overlap_counterexample :
    New (0 : Int) [1, 2, 3] ([] : Heap Int) =
      .ok (⟨some ⟨0, 0, 3, 3⟩, 3, 3⟩, [[1, 2, 3]])
    ∧ Slice.Sliced (⟨some ⟨0, 0, 3, 3⟩, 3, 3⟩ : Slice) [0, 2] ([[1, 2, 3]] : Heap Int) =
        .ok ⟨some ⟨0, 0, 2, 3⟩, 2, 3⟩
    ∧ Slice.Sliced (⟨some ⟨0, 0, 3, 3⟩, 3, 3⟩ : Slice) [1, 3] ([[1, 2, 3]] : Heap Int) =
        .ok ⟨some ⟨0, 1, 2, 2⟩, 2, 2⟩
    ∧ Copy (⟨some ⟨0, 1, 2, 2⟩, 2, 2⟩ : Slice) (⟨some ⟨0, 0, 2, 3⟩, 2, 3⟩ : Slice)
        ([[1, 2, 3]] : Heap Int) = .ok (2, [[1, 1, 1]])
    ∧ Slice.Get (⟨some ⟨0, 0, 2, 3⟩, 2, 3⟩ : Slice) 1 ([[1, 2, 3]] : Heap Int) = .ok 2
    ∧ Slice.Get (⟨some ⟨0, 1, 2, 2⟩, 2, 2⟩ : Slice) 1 ([[1, 1, 1]] : Heap Int) = .ok 1
    ∧ (1 : Int) ≠ 2 :=
  ⟨rfl, rfl, rfl, rfl, rfl, rfl, by decide⟩

/-- C2 (amended): `Copy(dst, src)` copies the first
`min(dst.Len(), src.Len())` elements in increasing index order, reading
each source element immediately before overwriting the destination
slot.  When `dst` and `src` lie in different buffers, or alias the same
buffer with `dst`'s offset not after `src`'s, no slot is read after it
has been written, so the result equals copying from a snapshot of `src`
taken before the call: afterwards `dst.Get(j)` returns what `src.Get(j)`
returned before the call, for every copied index `j`.  (When `dst`
begins strictly inside `src`'s region the snapshot property fails, as
the counterexample shows.) -/
theorem C2_copy_amended {α : Type} [Inhabited α] (h : Heap α) (dst src : Slice)
    (gd gsrc : GoSlice) (hwfd : wfOn h dst gd) (hwfs : wfOn h src gsrc)
    (hsafe : gd.buf ≠ gsrc.buf ∨ gd.off ≤ gsrc.off) :
    ∃ n h', Copy dst src h = .ok (n, h')
      ∧ n = min dst.Len src.Len
      ∧ (∀ j : Int, 0 ≤ j → j < n →
          Slice.Get dst j h' = Slice.Get src j h) := by
  obtain ⟨hgsd, hlend, hcapd, hled, hbd, hoffd⟩ := hwfd
  obtain ⟨hgss, hlens, hcaps, hles, hbs, hoffs⟩ := hwfs
  have hDLen : dst.Len = dst.length := rfl
  have hSLen : src.Len = src.length := rfl
  have hm0 : (0 : Int) ≤ if src.Len < dst.Len then src.Len else dst.Len := by
    split_ifs <;> omega
  have hGSL := getSetLoop_ok dst src hgsd hgss hlens hsafe
    (if src.Len < dst.Len then src.Len else dst.Len).toNat 0 h (le_refl 0)
    (by split_ifs <;> omega) (by split_ifs <;> omega)
  simp only [Int.toNat_zero, Nat.add_zero] at hGSL
  have hCopy : Copy dst src h =
      .ok (if src.Len < dst.Len then src.Len else dst.Len,
           writeList gd.buf h gd.off
             (readList h gsrc.buf gsrc.off
               (if src.Len < dst.Len then src.Len else dst.Len).toNat)) := by
    simp only [Copy]
    simp only [hGSL]
  refine ⟨_, _, hCopy, by split_ifs <;> omega, ?_⟩
  intro j hj0 hjn
  have hjlt : j < dst.length ∧ j < src.length := by
    constructor <;> (revert hjn; split_ifs <;> intro hjn <;> omega)
  rw [Get_ok (i := j) hgsd hlend hj0 hjlt.1, Get_ok (i := j) hgss hlens hj0 hjlt.2]
  congr 1
  have hjm : j.toNat < (readList h gsrc.buf gsrc.off
      (if src.Len < dst.Len then src.Len else dst.Len).toNat).length := by
    rw [length_readList]
    revert hjn
    split_ifs <;> intro hjn <;> omega
  have hwat := hRead_writeList_at (b := gd.buf) (h := h) (n := gd.off)
    (l := readList h gsrc.buf gsrc.off
      (if src.Len < dst.Len then src.Len else dst.Len).toNat)
    (by rw [length_readList]; split_ifs <;> omega) j.toNat hjm
  rw [hwat, readList_getD (by revert hjn; split_ifs <;> intro hjn <;> omega)]

/-- C2 (witness for the amended theorem): the same buffer `[1,2,3]` but
copying downward — `dst = v.Sliced(0,2)` at offset 0, `src = v.Sliced(1,3)`
at offset 1; the destination starts before the source, so the copy is
snapshot-correct. -/
theorem C2_copy_amended_witness :
    wfOn ([[1, 2, 3]] : Heap Int) ⟨some ⟨0, 0, 2, 3⟩, 2, 3⟩ ⟨0, 0, 2, 3⟩
    ∧ wfOn ([[1, 2, 3]] : Heap Int) ⟨some ⟨0, 1, 2, 2⟩, 2, 2⟩ ⟨0, 1, 2, 2⟩
    ∧ ((⟨0, 0, 2, 3⟩ : GoSlice).buf ≠ (⟨0, 1, 2, 2⟩ : GoSlice).buf ∨
        (⟨0, 0, 2, 3⟩ : GoSlice).off ≤ (⟨0, 1, 2, 2⟩ : GoSlice).off)
    ∧ (∃ n h',
        Copy (⟨some ⟨0, 0, 2, 3⟩, 2, 3⟩ : Slice) (⟨some ⟨0, 1, 2, 2⟩, 2, 2⟩ : Slice)
            ([[1, 2, 3]] : Heap Int) = .ok (n, h')
        ∧ n = min (⟨some ⟨0, 0, 2, 3⟩, 2, 3⟩ : Slice).Len
            (⟨some ⟨0, 1, 2, 2⟩, 2, 2⟩ : Slice).Len
        ∧ (∀ j : Int, 0 ≤ j → j < n →
            Slice.Get (⟨some ⟨0, 0, 2, 3⟩, 2, 3⟩ : Slice) j h' =
              Slice.Get (⟨some ⟨0, 1, 2, 2⟩, 2, 2⟩ : Slice) j
                ([[1, 2, 3]] : Heap Int))) :=
  ⟨by decide, by decide, by decide,
    C2_copy_amended [[1, 2, 3]] ⟨some ⟨0, 0, 2, 3⟩, 2, 3⟩ ⟨some ⟨0, 1, 2, 2⟩, 2, 2⟩
      ⟨0, 0, 2, 3⟩ ⟨0, 1, 2, 2⟩ (by decide) (by decide) (by decide)⟩

end slice
